import Mathlib

/-!
Verification development for the BC FSR road-segment merger
(`src/claude.py`).

The script's own code is a filter (`filter_fsr_segments`), a group-by
orchestrator (`merge_fsr_segments`) and glue.  The segment-merge engine
itself is delegated to `shapely.ops.linemerge`, a black box that is not
part of the repository; the design document defines that engine
normatively via endpoint-degree semantics (§4.1–4.3) and declares it the
testable contract (§9).  Accordingly:

* `filter_fsr_segments`, `merge_fsr_segments`, `mergeGroup`, `groupOf`,
  `sortedKeys` are translated from `src/claude.py`; the per-group merge
  routine is an explicit parameter `lm` (the `linemerge` black box, whose
  failure models the `except` branch at claude.py:103), and planar length
  is an explicit parameter `lenf` (shapely's Euclidean `.length`).
* `canonicalize`, `buildGraph`, `walk`, `extractLoop`, `extract` are
  modelled from the spec (§4.1 EndpointKey, §4.2 Segment Graph Builder,
  §4.3 Path Extractor), since that code is absent from the repository.

Coordinates are embedded as exact rationals; machine floating point is
out of scope of this embedding.
-/

/-- A planar point, as an exact pair of rationals. -/
abbrev Point : Type := ℚ × ℚ

/-- A quantized endpoint key: each coordinate rounded to the tolerance grid. -/
abbrev Key : Type := ℤ × ℤ

/-- Modelled from the spec (§4.1): round half away from zero, the
deterministic rounding rule the spec prescribes for coordinates exactly on
a rounding boundary. -/
def rha (x : ℚ) : ℤ :=
  if 0 ≤ x then ⌊x + 1 / 2⌋ else -⌊-x + 1 / 2⌋

/-- Modelled from the spec (§4.1): `canonicalize(point, ε)` quantizes each
coordinate independently to the ε grid, producing the graph-node key. -/
def canonicalize (q : ℚ) (p : Point) : Key :=
  (rha (p.1 / q), rha (p.2 / q))

/-- A segment's geometry: its ordered vertex list. -/
abbrev Seg : Type := List Point

/-- Modelled from the spec (§4.2, §7): a segment is valid iff it has at
least 2 vertices (rational coordinates are always finite, so the
non-finite-coordinate case of `InvalidSegment` is vacuous here). -/
def validSeg (s : Seg) : Bool :=
  decide (2 ≤ s.length)

/-- Modelled from the spec (§7): the per-group tally of rejected
(`InvalidSegment`) segments. -/
def rejectedCount (segs : List Seg) : ℕ :=
  (segs.filter (fun s => !validSeg s)).length

/-- Last vertex of a segment (default origin on the empty list, which the
builder never passes). -/
def lastP : Seg → Point
  | [] => (0, 0)
  | [p] => p
  | _ :: q :: rest => lastP (q :: rest)

/-- An edge of the group graph: an input polyline together with its index
among the group's valid segments and the quantized keys of its two
endpoints. -/
structure Edge where
  idx : ℕ
  pts : Seg
  a : Key
  b : Key
deriving DecidableEq

/-- Build one graph edge from a valid segment. -/
def mkEdge (q : ℚ) (i : ℕ) (s : Seg) : Edge :=
  ⟨i, s, canonicalize q (s.headD (0, 0)), canonicalize q (lastP s)⟩

/-- Pair each list element with its position, starting at `i`. -/
def indexed : ℕ → List Seg → List (ℕ × Seg)
  | _, [] => []
  | i, s :: rest => (i, s) :: indexed (i + 1) rest

/-- Modelled from the spec (§4.2): the Segment Graph Builder.  Invalid
segments are excluded; each valid segment becomes one edge between the
quantized keys of its first and last vertex (self-loops and parallel
edges are representable as-is). -/
def buildGraph (q : ℚ) (segs : List Seg) : List Edge :=
  (indexed 0 (segs.filter validSeg)).map (fun p => mkEdge q p.1 p.2)

/-- Degree of a node: number of incident edge-ends (a self-loop
contributes 2). -/
def degree (g : List Edge) (k : Key) : ℕ :=
  (g.map (fun e =>
    (if e.a = k then 1 else 0) + (if e.b = k then 1 else 0))).sum

/-- Whether some self-loop edge sits at node `k`. -/
def selfLoopAt (g : List Edge) (k : Key) : Bool :=
  g.any (fun e => decide (e.a = k) && decide (e.b = k))

/-- Modelled from the spec (§4.3): a pass-through node has degree exactly
2, and a self-loop never qualifies its node as pass-through. -/
def passThrough (g : List Edge) (k : Key) : Bool :=
  degree g k == 2 && !selfLoopAt g k

/-- One traversal step: an edge plus its direction
(`true` = from `a` to `b`). -/
abbrev Step : Type := Edge × Bool

/-- The far endpoint of an edge when entered at `k`. -/
def farEnd (e : Edge) (k : Key) : Key :=
  if e.a = k then e.b else e.a

/-- Unvisited edges incident to node `k`. -/
def unvisitedAt (g : List Edge) (visited : List ℕ) (k : Key) : List Edge :=
  g.filter (fun e =>
    !visited.contains e.idx && (decide (e.a = k) || decide (e.b = k)))

/-- Modelled from the spec (§4.3): outward path growth.  While the current
endpoint is a pass-through node with exactly one unvisited incident edge,
extend through that edge and advance to its far endpoint; fuel bounds the
recursion (each step consumes one unvisited edge, so `g.length` fuel never
truncates).  Returns the steps taken and the updated visited set. -/
def walk (g : List Edge) : ℕ → List ℕ → Key → List Step × List ℕ
  | 0, visited, _ => ([], visited)
  | fuel + 1, visited, k =>
    if passThrough g k then
      match unvisitedAt g visited k with
      | [e] =>
        let r := walk g fuel (e.idx :: visited) (farEnd e k)
        ((e, decide (e.a = k)) :: r.1, r.2)
      | _ => ([], visited)
    else ([], visited)

/-- A maximal merged path: the ordered traversal steps it consumed. -/
structure MergedPath where
  steps : List Step
deriving DecidableEq

/-- Reverse a step's traversal direction. -/
def flipStep (s : Step) : Step :=
  (s.1, !s.2)

/-- Modelled from the spec (§4.3): treat each unvisited edge, in input
order, as the start of path growth, walking outward from both of its
endpoints; returns the emitted paths and the final visited set. -/
def extractLoop (g : List Edge) : List Edge → List ℕ → List MergedPath × List ℕ
  | [], visited => ([], visited)
  | e :: rest, visited =>
    if visited.contains e.idx then extractLoop g rest visited
    else
      let fwd := walk g g.length (e.idx :: visited) e.b
      let bwd := walk g g.length fwd.2 e.a
      let path : MergedPath := ⟨(bwd.1.map flipStep).reverse ++ (e, true) :: fwd.1⟩
      let r := extractLoop g rest bwd.2
      (path :: r.1, r.2)

/-- Modelled from the spec (§4.2–4.3): build the group graph and extract
its maximal paths. -/
def extract (q : ℚ) (segs : List Seg) : List MergedPath :=
  (extractLoop (buildGraph q segs) (buildGraph q segs) []).1

/-- Vertex sequence contributed by one step (the segment's own vertices,
reversed when traversed `b` to `a`). -/
def stepPts (s : Step) : Seg :=
  if s.2 then s.1.pts else s.1.pts.reverse

/-- Modelled from the spec (§4.3): the merged vertex sequence of a path —
the first segment's vertices followed by each later segment's vertices
minus the shared junction vertex. -/
def pathVerts (p : MergedPath) : Seg :=
  match p.steps with
  | [] => []
  | s :: rest => stepPts s ++ (rest.map (fun t => (stepPts t).drop 1)).flatten

/-- Indices of the original segments a path consumed. -/
def pathIdxs (p : MergedPath) : List ℕ :=
  p.steps.map (fun s => s.1.idx)

/-- Summed original length of a path's constituent segments, for a given
per-segment length function. -/
def pathLen (lenf : Seg → ℚ) (p : MergedPath) : ℚ :=
  (p.steps.map (fun s => lenf s.1.pts)).sum

/-- Interior vertices of a path (all but the two end vertices). -/
def pathInterior (p : MergedPath) : List Point :=
  ((pathVerts p).drop 1).dropLast

/-- Whether a path crosses the node `k`: some interior vertex quantizes
to `k`. -/
def crossesKey (q : ℚ) (p : MergedPath) (k : Key) : Bool :=
  (pathInterior p).any (fun v => decide (canonicalize q v = k))

/-- An input record, as consumed by the script: its `ROAD_CLASS` and
`ROAD_NAME_FULL` attributes (either may be missing, pandas `NaN`) and its
polyline geometry. -/
structure InRec where
  roadClass : Option String
  roadNameFull : Option String
  geom : Seg
deriving DecidableEq

/-- An output record, as assembled at claude.py:94-101. -/
structure OutRec where
  title : String
  roadNameFull : String
  roadClass : String
  originalSegments : ℕ
  totalLengthM : ℚ
  geometry : List Seg
deriving DecidableEq

/-- Case-insensitive substring test, the model of
`str.contains('FSR', case=False)` at claude.py:24. -/
def containsCI (s pat : String) : Bool :=
  s.toLower.toList.tails.any (fun t => pat.toLower.toList.isPrefixOf t)

/-- The row predicate of claude.py:19-27: `ROAD_CLASS == 'resource'` (a
missing value compares unequal) and `ROAD_NAME_FULL` contains `'FSR'`
case-insensitively (`na=False`: a missing name is rejected). -/
def matchesFSR (r : InRec) : Bool :=
  r.roadClass == some "resource" &&
    (match r.roadNameFull with
     | some s => containsCI s "FSR"
     | none => false)

/-- Translated from claude.py:14-32: keep exactly the rows passing the
combined resource/FSR mask. -/
def filter_fsr_segments (records : List InRec) : List InRec :=
  records.filter matchesFSR

/-- Group keys of `groupby('ROAD_NAME_FULL')` at claude.py:83: distinct
non-missing names, in sorted order (pandas sorts group keys ascending and
drops missing keys). -/
def sortedKeys (records : List InRec) : List String :=
  List.insertionSort (· ≤ ·) (records.filterMap InRec.roadNameFull).dedup

/-- The bucket of records carrying group key `k`. -/
def groupOf (records : List InRec) (k : String) : List InRec :=
  records.filter (fun r => r.roadNameFull == some k)

/-- Translated from claude.py:84-105 (one iteration of the group loop):
run the black-box merge `lm` on the group's geometries; on success emit
the record of claude.py:94-101 (title and `ROAD_NAME_FULL` set to the
group key, `ROAD_CLASS` `'resource'`, the group's segment count, the sum
of the group's original per-segment lengths, the merged geometry); on
failure (`except` at claude.py:103) emit nothing. -/
def mergeGroup (lm : List Seg → Option (List Seg)) (lenf : Seg → ℚ)
    (k : String) (grp : List InRec) : Option OutRec :=
  match lm (grp.map InRec.geom) with
  | some mg =>
      some ⟨k, k, "resource", grp.length,
        (grp.map (fun r => lenf r.geom)).sum, mg⟩
  | none => none

/-- Translated from claude.py:75-121: group by `ROAD_NAME_FULL`, merge
each group (skipping groups whose merge raises), and return `none` when
no group produced a record (claude.py:107-109), else the record list. -/
def merge_fsr_segments (lm : List Seg → Option (List Seg))
    (lenf : Seg → ℚ) (records : List InRec) : Option (List OutRec) :=
  let recs := (sortedKeys records).filterMap
    (fun k => mergeGroup lm lenf k (groupOf records k))
  if recs.isEmpty then none else some recs

/-- Modelled from the spec (§4.2–4.3): the spec's merge engine packaged as
an always-succeeding instance of the black-box `lm` parameter, returning
one polyline per extracted MergedPath. -/
def lmModel (q : ℚ) (segs : List Seg) : Option (List Seg) :=
  some ((extract q segs).map pathVerts)

/-- Fixture: an always-succeeding black-box merge (identity). -/
def lm0 : List Seg → Option (List Seg) :=
  fun segs => some segs

/-- Fixture: a concrete per-segment length function (vertex count). -/
def len0 : Seg → ℚ :=
  fun s => (s.length : ℚ)

/-- Fixture: one well-formed FSR input record. -/
def rec0 : InRec :=
  ⟨some "resource", some "A FSR", [(0, 0), (1, 0)]⟩

/-- Fixture: the output record the orchestrator emits for `rec0`'s group
under `lm0` and `len0`. -/
def out0 : OutRec :=
  ⟨"A FSR", "A FSR", "resource", 1, 2, [[(0, 0), (1, 0)]]⟩

/-- Fixture: a black-box merge that fails exactly on 2-segment groups. -/
def lm1 : List Seg → Option (List Seg) :=
  fun segs => if segs.length == 2 then none else some segs

/-- Fixture: records forming two groups, of which group `B FSR` has two
segments (so `lm1` fails on it). -/
def recs6 : List InRec :=
  [⟨some "resource", some "A FSR", [(0, 0), (1, 0)]⟩,
   ⟨some "resource", some "B FSR", [(2, 0), (3, 0)]⟩,
   ⟨some "resource", some "B FSR", [(3, 0), (4, 0)]⟩]

/-- Fixture: a three-segment group meeting at the degree-3 junction
(1,0). -/
def recsJ : List InRec :=
  [⟨some "resource", some "J FSR", [(0, 0), (1, 0)]⟩,
   ⟨some "resource", some "J FSR", [(1, 0), (1, 1)]⟩,
   ⟨some "resource", some "J FSR", [(1, 0), (2, 0)]⟩]

theorem containsCI_iff (s pat : String) :
    containsCI s pat = true ↔ pat.toLower.toList <:+: s.toLower.toList := by
  simp only [containsCI, List.any_eq_true, List.mem_tails]
  constructor
  · rintro ⟨t, ht, hp⟩
    exact List.infix_iff_prefix_suffix.mpr
      ⟨t, List.isPrefixOf_iff_prefix.mp hp, ht⟩
  · intro h
    obtain ⟨t, hp, ht⟩ := List.infix_iff_prefix_suffix.mp h
    exact ⟨t, ht, List.isPrefixOf_iff_prefix.mpr hp⟩

/-- C9: `filter_fsr_segments` retains exactly the records whose
`ROAD_CLASS` is the string `'resource'` and whose `ROAD_NAME_FULL` is
present and contains `'FSR'` case-insensitively (so a record with a
missing `ROAD_NAME_FULL` is never retained). -/
theorem claim_C9 (records : List InRec) (r : InRec) :
    r ∈ filter_fsr_segments records ↔
      r ∈ records ∧ r.roadClass = some "resource" ∧
        ∃ s, r.roadNameFull = some s ∧ "fsr".toList <:+: s.toLower.toList := by
  have hfsr : "FSR".toLower = "fsr" := by with_unfolding_all decide
  obtain ⟨rc, rn, g⟩ := r
  cases rn with
  | none =>
      simp [filter_fsr_segments, List.mem_filter, matchesFSR]
  | some s =>
      simp [filter_fsr_segments, List.mem_filter, matchesFSR,
        containsCI_iff, hfsr, and_assoc]

/-- C10: the orchestrator returns `none` (not an empty collection) exactly
when no group yields a merged record — the input has no groups or every
group's merge fails — and any returned collection is nonempty. -/
theorem claim_C10 (lm : List Seg → Option (List Seg)) (lenf : Seg → ℚ)
    (records : List InRec) :
    (merge_fsr_segments lm lenf records = none ↔
      ∀ k ∈ sortedKeys records,
        mergeGroup lm lenf k (groupOf records k) = none) ∧
    (∀ l, merge_fsr_segments lm lenf records = some l → l ≠ []) := by
  simp only [merge_fsr_segments]
  split
  case isTrue h =>
    simp only [List.isEmpty_iff, List.filterMap_eq_nil_iff] at h
    refine ⟨⟨fun _ => h, fun _ => rfl⟩, fun l hl => by cases hl⟩
  case isFalse h =>
    simp only [List.isEmpty_iff, List.filterMap_eq_nil_iff] at h
    constructor
    · simp only [reduceCtorEq, false_iff]
      intro hall
      exact h hall
    · rintro l hl
      injection hl with hl
      subst hl
      intro hnil
      rw [List.filterMap_eq_nil_iff] at hnil
      exact h hnil

theorem claim_C10_witness : ([out0] : List OutRec) ≠ [] :=
  (claim_C10 lm0 len0 [rec0]).2 [out0] (by with_unfolding_all decide)

/-- C7: every output record carries its group's original-segment count and
the sum of the group's per-segment lengths, computed on the input
segments (the length parameter is applied to the original geometries, not
to the merged result), alongside the group key and `'resource'` class. -/
theorem claim_C7 (lm : List Seg → Option (List Seg)) (lenf : Seg → ℚ)
    (records : List InRec) (l : List OutRec)
    (h : merge_fsr_segments lm lenf records = some l) :
    ∀ rec ∈ l, rec.roadNameFull = rec.title ∧ rec.roadClass = "resource" ∧
      rec.originalSegments = (groupOf records rec.title).length ∧
      rec.totalLengthM =
        ((groupOf records rec.title).map (fun r => lenf r.geom)).sum := by
  intro rec hrec
  simp only [merge_fsr_segments] at h
  split at h
  · cases h
  · injection h with h
    subst h
    rw [List.mem_filterMap] at hrec
    obtain ⟨k, hk, hmk⟩ := hrec
    simp only [mergeGroup] at hmk
    split at hmk
    · injection hmk with hmk
      subst hmk
      exact ⟨rfl, rfl, rfl, rfl⟩
    · cases hmk

theorem claim_C7_witness :
    out0.roadNameFull = out0.title ∧ out0.roadClass = "resource" ∧
      out0.originalSegments = (groupOf [rec0] out0.title).length ∧
      out0.totalLengthM =
        ((groupOf [rec0] out0.title).map (fun r => len0 r.geom)).sum :=
  claim_C7 lm0 len0 [rec0] [out0] (by with_unfolding_all decide) out0
    (by simp)

/-- C8: extraction is a deterministic function of its input — two runs on
the same group in the same order produce identical path lists, and in
particular identical vertex sequences in the same order. -/
theorem claim_C8 (q : ℚ) (segs : List Seg) (r₁ r₂ : List MergedPath)
    (h₁ : r₁ = extract q segs) (h₂ : r₂ = extract q segs) :
    r₁.map pathVerts = r₂.map pathVerts ∧ r₁ = r₂ := by
  subst h₁
  subst h₂
  exact ⟨rfl, rfl⟩

theorem claim_C8_witness :
    (extract 1 [[((0 : ℚ), (0 : ℚ)), (1, 0)]]).map pathVerts =
        (extract 1 [[((0 : ℚ), (0 : ℚ)), (1, 0)]]).map pathVerts ∧
      extract 1 [[((0 : ℚ), (0 : ℚ)), (1, 0)]] =
        extract 1 [[((0 : ℚ), (0 : ℚ)), (1, 0)]] :=
  claim_C8 1 [[(0, 0), (1, 0)]] _ _ rfl rfl

/-- C3: a segment with fewer than 2 vertices is excluded from the group
graph, raises the group's rejected tally by exactly 1, and leaves the
extraction of the remaining segments unchanged, wherever it sits in the
group. -/
theorem claim_C3 (q : ℚ) (pre post : List Seg) (s : Seg)
    (h : s.length < 2) :
    buildGraph q (pre ++ s :: post) = buildGraph q (pre ++ post) ∧
    rejectedCount (pre ++ s :: post) = rejectedCount (pre ++ post) + 1 ∧
    extract q (pre ++ s :: post) = extract q (pre ++ post) := by
  have hv : validSeg s = false := by
    simp only [validSeg, decide_eq_false_iff_not]
    omega
  have hf : (pre ++ s :: post).filter validSeg =
      (pre ++ post).filter validSeg := by
    simp [List.filter_append, List.filter_cons, hv]
  have hbg : buildGraph q (pre ++ s :: post) = buildGraph q (pre ++ post) := by
    unfold buildGraph
    rw [hf]
  refine ⟨hbg, ?_, ?_⟩
  · unfold rejectedCount
    simp [List.filter_append, List.filter_cons, hv]
    omega
  · unfold extract
    rw [hbg]

theorem claim_C3_witness :
    buildGraph 1 ([[((0 : ℚ), (0 : ℚ)), (1, 0)]] ++ [((5 : ℚ), (5 : ℚ))] :: []) =
        buildGraph 1 ([[((0 : ℚ), (0 : ℚ)), (1, 0)]] ++ []) ∧
      rejectedCount ([[((0 : ℚ), (0 : ℚ)), (1, 0)]] ++ [((5 : ℚ), (5 : ℚ))] :: []) =
        rejectedCount ([[((0 : ℚ), (0 : ℚ)), (1, 0)]] ++ []) + 1 ∧
      extract 1 ([[((0 : ℚ), (0 : ℚ)), (1, 0)]] ++ [((5 : ℚ), (5 : ℚ))] :: []) =
        extract 1 ([[((0 : ℚ), (0 : ℚ)), (1, 0)]] ++ []) :=
  claim_C3 1 [[(0, 0), (1, 0)]] [] [(5, 5)] (by decide)

theorem filter_dedup_comm {α : Type} [DecidableEq α] (p : α → Bool)
    (l : List α) : (l.filter p).dedup = l.dedup.filter p := by
  induction l with
  | nil => simp
  | cons a l ih =>
    by_cases hp : p a = true
    · rw [List.filter_cons_of_pos hp]
      by_cases hm : a ∈ l
      · rw [List.dedup_cons_of_mem (List.mem_filter.mpr ⟨hm, hp⟩),
          List.dedup_cons_of_mem hm, ih]
      · rw [List.dedup_cons_of_not_mem (fun hc => hm (List.mem_filter.mp hc).1),
          List.dedup_cons_of_not_mem hm, List.filter_cons_of_pos hp, ih]
    · rw [List.filter_cons_of_neg (by simp [hp])]
      by_cases hm : a ∈ l
      · rw [List.dedup_cons_of_mem hm, ih]
      · rw [List.dedup_cons_of_not_mem hm,
          List.filter_cons_of_neg (by simp [hp]), ih]

theorem orderedInsert_eq_cons {α : Type} [LinearOrder α] (a : α)
    (l : List α) (h : ∀ x ∈ l, a ≤ x) :
    l.orderedInsert (· ≤ ·) a = a :: l := by
  cases l with
  | nil => rfl
  | cons b l => exact List.orderedInsert_of_le (r := (· ≤ ·)) l (h b (by simp))

theorem filter_orderedInsert_sorted {α : Type} [LinearOrder α] (p : α → Bool)
    (a : α) (l : List α) (hl : l.Sorted (· ≤ ·)) :
    (l.orderedInsert (· ≤ ·) a).filter p =
      if p a then (l.filter p).orderedInsert (· ≤ ·) a else l.filter p := by
  induction l with
  | nil =>
    by_cases hp : p a = true <;> simp [List.orderedInsert, hp]
  | cons b l ih =>
    have hbl : ∀ x ∈ l, b ≤ x := List.rel_of_sorted_cons hl
    by_cases hab : a ≤ b
    · rw [List.orderedInsert_of_le (r := (· ≤ ·)) l hab]
      by_cases hp : p a = true
      · rw [if_pos hp, List.filter_cons_of_pos hp,
          orderedInsert_eq_cons a ((b :: l).filter p) ?_]
        intro x hx
        rcases List.mem_filter.mp hx with ⟨hx, _⟩
        rcases List.mem_cons.mp hx with h1 | h2
        · exact h1 ▸ hab
        · exact le_trans hab (hbl x h2)
      · rw [if_neg hp, List.filter_cons_of_neg (by simp at hp; simp [hp])]
    · have hstep : (b :: l).orderedInsert (· ≤ ·) a =
          b :: l.orderedInsert (· ≤ ·) a := by
        simp [List.orderedInsert, hab]
      rw [hstep]
      have ihs := ih (List.sorted_cons.mp hl).2
      by_cases hpb : p b = true
      · rw [List.filter_cons_of_pos hpb, ihs, List.filter_cons_of_pos hpb]
        by_cases hp : p a = true
        · rw [if_pos hp, if_pos hp]
          have : (b :: l.filter p).orderedInsert (· ≤ ·) a =
              b :: (l.filter p).orderedInsert (· ≤ ·) a := by
            simp [List.orderedInsert, hab]
          rw [this]
        · rw [if_neg hp, if_neg hp]
      · rw [List.filter_cons_of_neg (by simp_all), ihs,
          List.filter_cons_of_neg (by simp_all)]

theorem filter_insertionSort_comm {α : Type} [LinearOrder α] (p : α → Bool)
    (l : List α) :
    (l.filter p).insertionSort (· ≤ ·) =
      (l.insertionSort (· ≤ ·)).filter p := by
  induction l with
  | nil => rfl
  | cons a l ih =>
    rw [List.insertionSort]
    rw [filter_orderedInsert_sorted p a _ (List.sorted_insertionSort _ _)]
    by_cases hp : p a = true
    · rw [if_pos hp, List.filter_cons_of_pos hp, List.insertionSort, ih]
    · rw [if_neg hp, List.filter_cons_of_neg hp, ih]

theorem filterMap_name_filter (records : List InRec) (g : String) :
    (records.filter (fun r => !(r.roadNameFull == some g))).filterMap
        InRec.roadNameFull =
      (records.filterMap InRec.roadNameFull).filter (fun k => !(k == g)) := by
  induction records with
  | nil => rfl
  | cons r l ih =>
    cases hrn : r.roadNameFull with
    | none => simp [List.filter_cons, List.filterMap_cons, hrn, ih]
    | some s =>
      by_cases hsg : s = g
      · subst hsg
        simp [List.filter_cons, List.filterMap_cons, hrn, ih]
      · simp [List.filter_cons, List.filterMap_cons, hrn, hsg, ih]

theorem sortedKeys_filter_key (records : List InRec) (g : String) :
    sortedKeys (records.filter (fun r => !(r.roadNameFull == some g))) =
      (sortedKeys records).filter (fun k => !(k == g)) := by
  unfold sortedKeys
  rw [filterMap_name_filter, filter_dedup_comm, filter_insertionSort_comm]

theorem groupOf_filter_key (records : List InRec) (g k : String)
    (hk : k ≠ g) :
    groupOf (records.filter (fun r => !(r.roadNameFull == some g))) k =
      groupOf records k := by
  unfold groupOf
  rw [List.filter_filter]
  apply List.filter_congr
  intro r _
  cases hrn : r.roadNameFull with
  | none => simp
  | some s =>
    by_cases hsk : s = k
    · subst hsk
      simp [hk]
    · simp [hsk]

theorem filterMap_drop_failing_key {β : Type} (f : String → Option β)
    (g : String) (hg : f g = none) (l : List String) :
    l.filterMap f = (l.filter (fun k => !(k == g))).filterMap f := by
  induction l with
  | nil => rfl
  | cons a l ih =>
    by_cases hag : a = g
    · subst hag
      simp [List.filterMap_cons, List.filter_cons, hg, ih]
    · simp [List.filterMap_cons, List.filter_cons, hag, ih]

theorem mergeGroup_title (lm : List Seg → Option (List Seg))
    (lenf : Seg → ℚ) (k : String) (grp : List InRec) (rec : OutRec)
    (h : mergeGroup lm lenf k grp = some rec) : rec.title = k := by
  simp only [mergeGroup] at h
  split at h
  · injection h with h
    subst h
    rfl
  · cases h

/-- C6: when one group's merge fails, that group contributes no output
record, and the orchestrator's result is exactly what it would be had the
failing group's records been absent from the input — sibling groups and
the run are unaffected. -/
theorem claim_C6 (lm : List Seg → Option (List Seg)) (lenf : Seg → ℚ)
    (records : List InRec) (gkey : String)
    (hfail : mergeGroup lm lenf gkey (groupOf records gkey) = none) :
    merge_fsr_segments lm lenf records =
      merge_fsr_segments lm lenf
        (records.filter (fun r => !(r.roadNameFull == some gkey))) ∧
    ∀ l, merge_fsr_segments lm lenf records = some l →
      ∀ rec ∈ l, rec.title ≠ gkey := by
  have hlists :
      (sortedKeys records).filterMap
          (fun k => mergeGroup lm lenf k (groupOf records k)) =
        (sortedKeys (records.filter (fun r => !(r.roadNameFull == some gkey)))).filterMap
          (fun k => mergeGroup lm lenf k
            (groupOf (records.filter (fun r => !(r.roadNameFull == some gkey))) k)) := by
    rw [sortedKeys_filter_key,
      filterMap_drop_failing_key _ gkey hfail ((sortedKeys records))]
    apply List.filterMap_congr
    intro k hk
    have hkg : k ≠ gkey := by
      rcases List.mem_filter.mp hk with ⟨_, h2⟩
      simpa using h2
    rw [groupOf_filter_key _ _ _ hkg]
  constructor
  · simp only [merge_fsr_segments]
    rw [hlists]
  · intro l hl rec hrec
    simp only [merge_fsr_segments] at hl
    split at hl
    · cases hl
    · injection hl with hl
      subst hl
      rw [List.mem_filterMap] at hrec
      obtain ⟨k, _, hmk⟩ := hrec
      rw [mergeGroup_title lm lenf k _ rec hmk]
      intro hT
      subst hT
      rw [hfail] at hmk
      cases hmk

theorem claim_C6_witness :
    merge_fsr_segments lm1 len0 recs6 =
      merge_fsr_segments lm1 len0
        (recs6.filter (fun r => !(r.roadNameFull == some "B FSR"))) ∧
    out0.title ≠ "B FSR" :=
  ⟨(claim_C6 lm1 len0 recs6 "B FSR" (by with_unfolding_all decide)).1,
   (claim_C6 lm1 len0 recs6 "B FSR" (by with_unfolding_all decide)).2 [out0]
     (by with_unfolding_all decide) out0 (by simp)⟩

theorem walk_visited (g : List Edge) (fuel : ℕ) :
    ∀ (visited : List ℕ) (k : Key),
      (walk g fuel visited k).2 =
        ((walk g fuel visited k).1.map (fun s => s.1.idx)).reverse ++ visited := by
  induction fuel with
  | zero =>
    intro visited k
    simp [walk]
  | succ fuel ih =>
    intro visited k
    rw [walk]
    split
    · split
      · simp only []
        rw [ih]
        simp
      · simp
    · simp

theorem walk_steps_mem (g : List Edge) (fuel : ℕ) :
    ∀ (visited : List ℕ) (k : Key),
      ∀ s ∈ (walk g fuel visited k).1, s.1 ∈ g := by
  induction fuel with
  | zero =>
    intro visited k s hs
    simp [walk] at hs
  | succ fuel ih =>
    intro visited k s hs
    rw [walk] at hs
    split at hs
    · split at hs
      · simp only [] at hs
        rename_i e he
        rcases List.mem_cons.mp hs with h1 | h2
        · subst h1
          have hu : e ∈ unvisitedAt g visited k := by
            rw [he]
            simp
          exact List.mem_of_mem_filter hu
        · exact ih _ _ s h2
      · simp at hs
    · simp at hs

theorem walk_nodup (g : List Edge) (fuel : ℕ) :
    ∀ (visited : List ℕ) (k : Key), visited.Nodup →
      ((walk g fuel visited k).2).Nodup := by
  induction fuel with
  | zero =>
    intro visited k h
    simpa [walk] using h
  | succ fuel ih =>
    intro visited k h
    rw [walk]
    split
    · split
      · simp only []
        rename_i e he
        apply ih
        refine List.nodup_cons.mpr ⟨?_, h⟩
        have hu : e ∈ unvisitedAt g visited k := by
          rw [he]
          simp
        rcases List.mem_filter.mp hu with ⟨_, hcond⟩
        simp only [Bool.and_eq_true, Bool.not_eq_true'] at hcond
        simpa using hcond.1
      · exact h
    · exact h

theorem walk_visited_sub (g : List Edge) (fuel : ℕ) (visited : List ℕ)
    (k : Key) : visited ⊆ (walk g fuel visited k).2 := by
  rw [walk_visited]
  exact List.subset_append_right _ _

theorem walk_visited_mem (g : List Edge) (fuel : ℕ) (visited : List ℕ)
    (k : Key) :
    ∀ x ∈ (walk g fuel visited k).2, x ∈ visited ∨ ∃ e ∈ g, x = e.idx := by
  intro x hx
  rw [walk_visited] at hx
  rcases List.mem_append.mp hx with h1 | h2
  · rw [List.mem_reverse] at h1
    rcases List.mem_map.mp h1 with ⟨s, hs, rfl⟩
    exact Or.inr ⟨s.1, walk_steps_mem g fuel visited k s hs, rfl⟩
  · exact Or.inl h2

theorem extractLoop_visited_perm (g : List Edge) :
    ∀ (pending : List Edge) (visited : List ℕ),
      List.Perm (extractLoop g pending visited).2
        (((extractLoop g pending visited).1.map pathIdxs).flatten ++ visited) := by
  intro pending
  induction pending with
  | nil =>
    intro visited
    simp [extractLoop]
  | cons e rest ih =>
    intro visited
    rw [extractLoop]
    split
    · simpa using ih visited
    · simp only []
      have hfwd := walk_visited g g.length (e.idx :: visited) e.b
      have hbwd := walk_visited g g.length
        (walk g g.length (e.idx :: visited) e.b).2 e.a
      have hih := ih (walk g g.length
        (walk g g.length (e.idx :: visited) e.b).2 e.a).2
      rw [List.perm_iff_count]
      intro a
      rw [List.count_append, List.perm_iff_count.mp hih a, hbwd, hfwd]
      have hcomp : ((fun (s : Step) => s.1.idx) ∘ flipStep) =
          (fun (s : Step) => s.1.idx) := funext fun s => rfl
      simp [pathIdxs, List.count_append, List.count_reverse,
        List.count_cons, hcomp]
      omega

theorem extractLoop_nodup (g : List Edge) :
    ∀ (pending : List Edge) (visited : List ℕ), visited.Nodup →
      ((extractLoop g pending visited).2).Nodup := by
  intro pending
  induction pending with
  | nil =>
    intro visited h
    simpa [extractLoop] using h
  | cons e rest ih =>
    intro visited h
    rw [extractLoop]
    split
    · exact ih visited h
    · simp only []
      apply ih
      apply walk_nodup
      apply walk_nodup
      refine List.nodup_cons.mpr ⟨?_, h⟩
      rename_i hc
      simpa using hc

theorem extractLoop_mono (g : List Edge) :
    ∀ (pending : List Edge) (visited : List ℕ) (x : ℕ), x ∈ visited →
      x ∈ (extractLoop g pending visited).2 := by
  intro pending
  induction pending with
  | nil =>
    intro visited x hx
    simpa [extractLoop] using hx
  | cons e rest ih =>
    intro visited x hx
    rw [extractLoop]
    split
    · exact ih visited x hx
    · simp only []
      apply ih
      apply walk_visited_sub
      apply walk_visited_sub
      exact List.mem_cons_of_mem _ hx

theorem extractLoop_cover (g : List Edge) :
    ∀ (pending : List Edge) (visited : List ℕ),
      ∀ e ∈ pending, e.idx ∈ (extractLoop g pending visited).2 := by
  intro pending
  induction pending with
  | nil =>
    intro visited e he
    simp at he
  | cons e rest ih =>
    intro visited f hf
    rcases List.mem_cons.mp hf with h1 | h2
    · subst h1
      rw [extractLoop]
      split
      · rename_i hc
        apply extractLoop_mono
        simpa using hc
      · simp only []
        apply extractLoop_mono
        apply walk_visited_sub
        apply walk_visited_sub
        exact List.mem_cons_self _ _
    · rw [extractLoop]
      split
      · exact ih visited f h2
      · simp only []
        exact ih _ f h2

theorem extractLoop_visited_src (g : List Edge) :
    ∀ (pending : List Edge) (visited : List ℕ),
      (∀ e ∈ pending, e ∈ g) →
      ∀ x ∈ (extractLoop g pending visited).2,
        x ∈ visited ∨ ∃ e ∈ g, x = e.idx := by
  intro pending
  induction pending with
  | nil =>
    intro visited _ x hx
    simp [extractLoop] at hx
    exact Or.inl hx
  | cons e rest ih =>
    intro visited hp x hx
    rw [extractLoop] at hx
    split at hx
    · exact ih visited (fun f hf => hp f (List.mem_cons_of_mem _ hf)) x hx
    · simp only [] at hx
      rcases ih _ (fun f hf => hp f (List.mem_cons_of_mem _ hf)) x hx with
        h1 | h2
      · rcases walk_visited_mem _ _ _ _ x h1 with h3 | h4
        · rcases walk_visited_mem _ _ _ _ x h3 with h5 | h6
          · rcases List.mem_cons.mp h5 with h7 | h8
            · exact Or.inr ⟨e, hp e (List.mem_cons_self _ _), h7⟩
            · exact Or.inl h8
          · exact Or.inr h6
        · exact Or.inr h4
      · exact Or.inr h2

theorem extractLoop_steps_mem (g : List Edge) :
    ∀ (pending : List Edge) (visited : List ℕ),
      (∀ e ∈ pending, e ∈ g) →
      ∀ p ∈ (extractLoop g pending visited).1, ∀ s ∈ p.steps, s.1 ∈ g := by
  intro pending
  induction pending with
  | nil =>
    intro visited _ p hp
    simp [extractLoop] at hp
  | cons e rest ih =>
    intro visited hsub p hp s hs
    rw [extractLoop] at hp
    split at hp
    · exact ih visited (fun f hf => hsub f (List.mem_cons_of_mem _ hf)) p hp s hs
    · simp only [] at hp
      rcases List.mem_cons.mp hp with h1 | h2
      · subst h1
        simp only [] at hs
        rcases List.mem_append.mp hs with ha | hb
        · rw [List.mem_reverse] at ha
          rcases List.mem_map.mp ha with ⟨t, ht, rfl⟩
          exact walk_steps_mem _ _ _ _ t ht
        · rcases List.mem_cons.mp hb with hc | hd
          · subst hc
            exact hsub e (List.mem_cons_self _ _)
          · exact walk_steps_mem _ _ _ _ s hd
      · exact ih _ (fun f hf => hsub f (List.mem_cons_of_mem _ hf)) p h2 s hs

theorem indexed_fst_ge (i : ℕ) (l : List Seg) :
    ∀ x ∈ (indexed i l).map Prod.fst, i ≤ x := by
  induction l generalizing i with
  | nil =>
    intro x hx
    simp [indexed] at hx
  | cons s l ih =>
    intro x hx
    simp only [indexed, List.map_cons, List.mem_cons] at hx
    rcases hx with h1 | h2
    · omega
    · have := ih (i + 1) x h2
      omega

theorem indexed_fst_nodup (i : ℕ) (l : List Seg) :
    ((indexed i l).map Prod.fst).Nodup := by
  induction l generalizing i with
  | nil => simp [indexed]
  | cons s l ih =>
    simp only [indexed, List.map_cons]
    refine List.nodup_cons.mpr ⟨?_, ih (i + 1)⟩
    intro hmem
    have := indexed_fst_ge (i + 1) l i hmem
    omega

theorem indexed_map_snd (i : ℕ) (l : List Seg) :
    (indexed i l).map Prod.snd = l := by
  induction l generalizing i with
  | nil => rfl
  | cons s l ih =>
    simp only [indexed, List.map_cons, ih]

theorem buildGraph_idx_nodup (q : ℚ) (segs : List Seg) :
    ((buildGraph q segs).map Edge.idx).Nodup := by
  unfold buildGraph
  rw [List.map_map]
  have : (Edge.idx ∘ fun p => mkEdge q p.1 p.2) = Prod.fst := by
    funext p
    rfl
  rw [this]
  exact indexed_fst_nodup 0 _

theorem buildGraph_map_pts (q : ℚ) (segs : List Seg) :
    (buildGraph q segs).map Edge.pts = segs.filter validSeg := by
  unfold buildGraph
  rw [List.map_map]
  have : (Edge.pts ∘ fun p => mkEdge q p.1 p.2) = Prod.snd := by
    funext p
    rfl
  rw [this]
  exact indexed_map_snd 0 _

theorem perm_of_map_idx (l' l : List Edge) (hsub : ∀ x ∈ l', x ∈ l)
    (hnd : (l.map Edge.idx).Nodup)
    (hperm : List.Perm (l'.map Edge.idx) (l.map Edge.idx)) :
    List.Perm l' l := by
  have hnd' : (l'.map Edge.idx).Nodup := hperm.nodup_iff.mpr hnd
  have hinj := List.inj_on_of_nodup_map hnd
  have hsub2 : ∀ x ∈ l, x ∈ l' := by
    intro x hx
    have hxm : x.idx ∈ l'.map Edge.idx :=
      hperm.mem_iff.mpr (List.mem_map_of_mem _ hx)
    rcases List.mem_map.mp hxm with ⟨y, hy, hxy⟩
    have : y = x := hinj (hsub y hy) hx hxy
    exact this ▸ hy
  exact ((List.Nodup.of_map _ hnd').subperm hsub).antisymm
    ((List.Nodup.of_map _ hnd).subperm hsub2)

/-- C4: edge partition — the multiset union of the original segments
incorporated across all extracted MergedPaths of a group is exactly the
group's valid segment list: no segment lands in two paths and no valid
segment is omitted. -/
theorem claim_C4 (q : ℚ) (segs : List Seg) :
    List.Perm
      (((extract q segs).map (fun p => p.steps.map (fun s => s.1.pts))).flatten)
      (segs.filter validSeg) := by
  unfold extract
  have hperm1 := extractLoop_visited_perm (buildGraph q segs)
    (buildGraph q segs) []
  rw [List.append_nil] at hperm1
  have hnd : ((extractLoop (buildGraph q segs) (buildGraph q segs) []).2).Nodup :=
    extractLoop_nodup _ _ _ List.nodup_nil
  have hgnd := buildGraph_idx_nodup q segs
  have hv_sub : (extractLoop (buildGraph q segs) (buildGraph q segs) []).2 ⊆
      (buildGraph q segs).map Edge.idx := by
    intro x hx
    rcases extractLoop_visited_src _ _ _ (fun e he => he) x hx with h1 | h2
    · simp at h1
    · rcases h2 with ⟨e, he, rfl⟩
      exact List.mem_map_of_mem _ he
  have hg_sub : (buildGraph q segs).map Edge.idx ⊆
      (extractLoop (buildGraph q segs) (buildGraph q segs) []).2 := by
    intro x hx
    rcases List.mem_map.mp hx with ⟨e, he, rfl⟩
    exact extractLoop_cover _ _ _ e he
  have hperm2 : List.Perm
      (extractLoop (buildGraph q segs) (buildGraph q segs) []).2
      ((buildGraph q segs).map Edge.idx) :=
    (hnd.subperm hv_sub).antisymm (hgnd.subperm hg_sub)
  have hperm3 : List.Perm
      (((extractLoop (buildGraph q segs) (buildGraph q segs) []).1.map
        pathIdxs).flatten)
      ((buildGraph q segs).map Edge.idx) := hperm1.symm.trans hperm2
  have hflatmap :
      ((((extractLoop (buildGraph q segs) (buildGraph q segs) []).1.map
          (fun p => p.steps.map (fun s => s.1))).flatten).map Edge.idx) =
        ((extractLoop (buildGraph q segs) (buildGraph q segs) []).1.map
          pathIdxs).flatten := by
    rw [List.map_flatten, List.map_map]
    congr 1
    apply List.map_congr_left
    intro p _
    simp [pathIdxs, Function.comp, List.map_map]
  have hEsub : ∀ x ∈ (((extractLoop (buildGraph q segs) (buildGraph q segs)
      []).1.map (fun p => p.steps.map (fun s => s.1))).flatten),
      x ∈ buildGraph q segs := by
    intro x hx
    rcases List.mem_flatten.mp hx with ⟨L, hL, hxL⟩
    rcases List.mem_map.mp hL with ⟨p, hp, rfl⟩
    rcases List.mem_map.mp hxL with ⟨s, hs, rfl⟩
    exact extractLoop_steps_mem _ _ _ (fun e he => he) p hp s hs
  have hperm4 := perm_of_map_idx _ _ hEsub hgnd (hflatmap ▸ hperm3)
  have hmap := hperm4.map Edge.pts
  rw [buildGraph_map_pts] at hmap
  have hfinal :
      ((((extractLoop (buildGraph q segs) (buildGraph q segs) []).1.map
          (fun p => p.steps.map (fun s => s.1))).flatten).map Edge.pts) =
        ((extractLoop (buildGraph q segs) (buildGraph q segs) []).1.map
          (fun p => p.steps.map (fun s => s.1.pts))).flatten := by
    rw [List.map_flatten, List.map_map]
    congr 1
    apply List.map_congr_left
    intro p _
    simp [Function.comp, List.map_map]
  rw [hfinal] at hmap
  exact hmap

theorem chain_extract_eval (q : ℚ) (a b c d : Point)
    (hab : canonicalize q a ≠ canonicalize q b)
    (hac : canonicalize q a ≠ canonicalize q c)
    (had : canonicalize q a ≠ canonicalize q d)
    (hbc : canonicalize q b ≠ canonicalize q c)
    (hbd : canonicalize q b ≠ canonicalize q d)
    (hcd : canonicalize q c ≠ canonicalize q d) :
    extract q [[a, b], [b, c], [c, d]] =
      [⟨[(⟨0, [a, b], canonicalize q a, canonicalize q b⟩, true),
         (⟨1, [b, c], canonicalize q b, canonicalize q c⟩, true),
         (⟨2, [c, d], canonicalize q c, canonicalize q d⟩, true)]⟩] := by
  simp +decide [extract, extractLoop, walk, unvisitedAt, passThrough, degree,
    selfLoopAt, farEnd, buildGraph, indexed, mkEdge, validSeg, lastP,
    List.filter_cons, hab, hac, had, hbc, hbd, hcd, Ne.symm hab, Ne.symm hac,
    Ne.symm had, Ne.symm hbc, Ne.symm hbd, Ne.symm hcd]

theorem junction_extract_eval (q : ℚ) (a b c d : Point)
    (hab : canonicalize q a ≠ canonicalize q b)
    (hac : canonicalize q a ≠ canonicalize q c)
    (had : canonicalize q a ≠ canonicalize q d)
    (hbc : canonicalize q b ≠ canonicalize q c)
    (hbd : canonicalize q b ≠ canonicalize q d)
    (hcd : canonicalize q c ≠ canonicalize q d) :
    extract q [[a, b], [b, c], [b, d]] =
      [⟨[(⟨0, [a, b], canonicalize q a, canonicalize q b⟩, true)]⟩,
       ⟨[(⟨1, [b, c], canonicalize q b, canonicalize q c⟩, true)]⟩,
       ⟨[(⟨2, [b, d], canonicalize q b, canonicalize q d⟩, true)]⟩] := by
  simp +decide [extract, extractLoop, walk, unvisitedAt, passThrough, degree,
    selfLoopAt, farEnd, buildGraph, indexed, mkEdge, validSeg, lastP,
    List.filter_cons, hab, hac, had, hbc, hbd, hcd, Ne.symm hab, Ne.symm hac,
    Ne.symm had, Ne.symm hbc, Ne.symm hbd, Ne.symm hcd]

/-- C5: a three-segment chain A-B, B-C, C-D with exact shared endpoints
and all four node keys distinct extracts to exactly one MergedPath whose
vertex sequence is A,B,C,D in order and whose summed length is the sum of
the three segments' lengths, for any length function. -/
theorem claim_C5 (q : ℚ) (a b c d : Point) (lenf : Seg → ℚ)
    (hab : canonicalize q a ≠ canonicalize q b)
    (hac : canonicalize q a ≠ canonicalize q c)
    (had : canonicalize q a ≠ canonicalize q d)
    (hbc : canonicalize q b ≠ canonicalize q c)
    (hbd : canonicalize q b ≠ canonicalize q d)
    (hcd : canonicalize q c ≠ canonicalize q d) :
    (extract q [[a, b], [b, c], [c, d]]).map pathVerts = [[a, b, c, d]] ∧
    (extract q [[a, b], [b, c], [c, d]]).map (pathLen lenf) =
      [lenf [a, b] + lenf [b, c] + lenf [c, d]] := by
  rw [chain_extract_eval q a b c d hab hac had hbc hbd hcd]
  constructor
  · simp [pathVerts, stepPts]
  · simp [pathLen]
    ring

theorem claim_C5_witness :
    (extract 1 [[((0 : ℚ), (0 : ℚ)), (1, 0)], [(1, 0), (2, 0)],
        [(2, 0), (3, 0)]]).map pathVerts =
      [[((0 : ℚ), (0 : ℚ)), (1, 0), (2, 0), (3, 0)]] ∧
    (extract 1 [[((0 : ℚ), (0 : ℚ)), (1, 0)], [(1, 0), (2, 0)],
        [(2, 0), (3, 0)]]).map (pathLen len0) =
      [len0 [((0 : ℚ), (0 : ℚ)), (1, 0)] + len0 [((1 : ℚ), (0 : ℚ)), (2, 0)] +
        len0 [((2 : ℚ), (0 : ℚ)), (3, 0)]] :=
  claim_C5 1 (0, 0) (1, 0) (2, 0) (3, 0) len0
    (by with_unfolding_all decide) (by with_unfolding_all decide)
    (by with_unfolding_all decide) (by with_unfolding_all decide)
    (by with_unfolding_all decide) (by with_unfolding_all decide)

theorem length_filterMap_isSome {α β : Type} (f : α → Option β)
    (l : List α) :
    (l.filterMap f).length = (l.filter (fun a => (f a).isSome)).length := by
  induction l with
  | nil => rfl
  | cons a l ih =>
    cases h : f a <;> simp [List.filterMap_cons, List.filter_cons, h, ih]

/-- C1 (amended): the orchestrator emits exactly one output record per
group whose merge succeeds (not one per MergedPath), and for a group of
three segments A-B, B-C, B-D meeting at a degree-3 junction B the
extraction yields exactly 3 MergedPaths, each a single original segment,
none of which crosses B. -/
theorem claim_C1 :
    (∀ (lm : List Seg → Option (List Seg)) (lenf : Seg → ℚ)
        (records : List InRec) (l : List OutRec),
      merge_fsr_segments lm lenf records = some l →
        l.length = ((sortedKeys records).filter
          (fun k => (mergeGroup lm lenf k (groupOf records k)).isSome)).length) ∧
    (∀ (q : ℚ) (a b c d : Point),
      canonicalize q a ≠ canonicalize q b →
      canonicalize q a ≠ canonicalize q c →
      canonicalize q a ≠ canonicalize q d →
      canonicalize q b ≠ canonicalize q c →
      canonicalize q b ≠ canonicalize q d →
      canonicalize q c ≠ canonicalize q d →
      (extract q [[a, b], [b, c], [b, d]]).length = 3 ∧
      ∀ p ∈ extract q [[a, b], [b, c], [b, d]],
        p.steps.length = 1 ∧ crossesKey q p (canonicalize q b) = false) := by
  constructor
  · intro lm lenf records l h
    simp only [merge_fsr_segments] at h
    split at h
    · cases h
    · injection h with h
      subst h
      exact length_filterMap_isSome _ _
  · intro q a b c d hab hac had hbc hbd hcd
    rw [junction_extract_eval q a b c d hab hac had hbc hbd hcd]
    refine ⟨rfl, ?_⟩
    intro p hp
    rcases List.mem_cons.mp hp with h1 | hp
    · subst h1
      exact ⟨rfl, rfl⟩
    rcases List.mem_cons.mp hp with h2 | hp
    · subst h2
      exact ⟨rfl, rfl⟩
    rcases List.mem_cons.mp hp with h3 | hp
    · subst h3
      exact ⟨rfl, rfl⟩
    · cases hp

theorem claim_C1_witness :
    ([out0] : List OutRec).length = ((sortedKeys recs6).filter
        (fun k => (mergeGroup lm1 len0 k (groupOf recs6 k)).isSome)).length ∧
    (extract 1 [[((0 : ℚ), (0 : ℚ)), (1, 0)], [(1, 0), (1, 1)],
      [(1, 0), (2, 0)]]).length = 3 :=
  ⟨claim_C1.1 lm1 len0 recs6 [out0] (by with_unfolding_all decide),
   (claim_C1.2 1 (0, 0) (1, 0) (1, 1) (2, 0)
      (by with_unfolding_all decide) (by with_unfolding_all decide)
      (by with_unfolding_all decide) (by with_unfolding_all decide)
      (by with_unfolding_all decide) (by with_unfolding_all decide)).1⟩

/-- C1 counterexample: a group with a degree-3 junction yields 3
MergedPaths, yet the orchestrator (claude.py:94-101 appends one dict per
group) emits exactly 1 output record for it, not 3. -/
theorem claim_C1_counterexample :
    (extract 1 [[((0 : ℚ), (0 : ℚ)), (1, 0)], [(1, 0), (1, 1)],
      [(1, 0), (2, 0)]]).length = 3 ∧
    (merge_fsr_segments (lmModel 1) len0 recsJ).map List.length = some 1 := by
  with_unfolding_all decide

theorem rha_sub_le (t : ℚ) : |((rha t : ℤ) : ℚ) - t| ≤ 1 / 2 := by
  unfold rha
  split
  · rw [abs_le]
    have h1 := Int.sub_one_lt_floor (t + 1 / 2)
    have h2 := Int.floor_le (t + 1 / 2)
    constructor <;> [push_cast; push_cast] <;> linarith
  · rw [abs_le]
    have h1 := Int.sub_one_lt_floor (-t + 1 / 2)
    have h2 := Int.floor_le (-t + 1 / 2)
    constructor <;> [push_cast; push_cast] <;> linarith

theorem rha_lt_of_gap (v u : ℚ) (h : 1 < u - v) : rha v < rha u := by
  have hu := rha_sub_le u
  have hv := rha_sub_le v
  rw [abs_le] at hu hv
  have : ((rha v : ℤ) : ℚ) < ((rha u : ℤ) : ℚ) := by linarith
  exact_mod_cast this

theorem rha_div_ne (q x₁ x₂ : ℚ) (hq : 0 < q) (h : q < |x₁ - x₂|) :
    rha (x₁ / q) ≠ rha (x₂ / q) := by
  rcases lt_abs.mp h with h1 | h1
  · have hgap : 1 < x₁ / q - x₂ / q := by
      rw [div_sub_div_same]
      exact (one_lt_div hq).mpr h1
    exact (rha_lt_of_gap _ _ hgap).ne'
  · have hgap : 1 < x₂ / q - x₁ / q := by
      rw [div_sub_div_same]
      exact (one_lt_div hq).mpr (by linarith)
    exact (rha_lt_of_gap _ _ hgap).ne

/-- C2 (amended): endpoint connectivity is decided by quantized-key
equality. A per-axis coordinate difference greater than ε always yields
distinct keys (hence disconnection); the spec's example
(100.0000001 vs 100.0 at ε = 1e-6) quantizes identically and the two
segments merge into one path, while a 0.01 difference leaves two paths.
A sub-ε difference, however, can still disconnect when it straddles a
rounding boundary (see the counterexample). -/
theorem claim_C2 :
    (∀ (q x₁ y₁ x₂ y₂ : ℚ), 0 < q → (q < |x₁ - x₂| ∨ q < |y₁ - y₂|) →
      canonicalize q (x₁, y₁) ≠ canonicalize q (x₂, y₂)) ∧
    canonicalize (1 / 1000000) (100 + 1 / 10000000, 200) =
      canonicalize (1 / 1000000) (100, 200) ∧
    (extract (1 / 1000000)
      [[(0, 0), (100 + 1 / 10000000, 200)],
       [(100, 200), (200, 300)]]).length = 1 ∧
    (extract (1 / 1000000)
      [[(0, 0), (100 + 1 / 100, 200)],
       [(100, 200), (200, 300)]]).length = 2 := by
  refine ⟨?_, by with_unfolding_all decide, by with_unfolding_all decide,
    by with_unfolding_all decide⟩
  intro q x₁ y₁ x₂ y₂ hq h
  intro hc
  rcases h with h | h
  · exact rha_div_ne q x₁ x₂ hq h (congrArg Prod.fst hc)
  · exact rha_div_ne q y₁ y₂ hq h (congrArg Prod.snd hc)

theorem claim_C2_witness :
    canonicalize 1 ((0 : ℚ), (0 : ℚ)) ≠ canonicalize 1 (3, 0) :=
  claim_C2.1 1 0 0 3 0 (by norm_num)
    (Or.inl (by rw [abs_sub_comm]; norm_num))

/-- C2 counterexample: the endpoints (0.0000004, 0) and (0.0000006, 0)
differ by less than ε = 1e-6 in each coordinate, yet they quantize to
different keys and the two segments sharing them stay disconnected (two
extracted paths instead of one). -/
theorem claim_C2_counterexample :
    |(4 / 10000000 : ℚ) - 6 / 10000000| < 1 / 1000000 ∧
    |(0 : ℚ) - 0| < 1 / 1000000 ∧
    canonicalize (1 / 1000000) (4 / 10000000, 0) ≠
      canonicalize (1 / 1000000) (6 / 10000000, 0) ∧
    (extract (1 / 1000000)
      [[(-1, 0), (4 / 10000000, 0)],
       [(6 / 10000000, 0), (1, 0)]]).length = 2 := by
  with_unfolding_all decide
